/-
Verification of the digit-extraction and bootstrapping core of the
Bootstrapping_Polyfunctions repository (an HElib fork).

The development shallowly embeds the relevant routines of
`src/recryption.cpp`, `src/polyEval.cpp` and `include/helib/Ctxt.h`:

* machine `long` arithmetic is modelled by `Int` (no overflow is relevant to
  the verified claims; all constants fit easily in 62 bits);
* `double` quantities that only enter comparisons (`coeff_bound`, the fudge
  factor, noise estimates) are modelled by exact rationals `Rat`;
* NTL's `ZZX` polynomials are modelled by coefficient lists `List Int`
  (index = degree, `deg` of the zero polynomial being `-1` as in NTL);
* ciphertexts are modelled by the plaintext-side value they carry, in an
  arbitrary commutative ring (for polynomial-identity claims) or in `Int`
  (for pipeline claims); the external ring operations that live outside the
  given sources (`Ctxt.cpp`, the linear maps, the powerful-basis conversion,
  the on-disk polynomial cache) are taken as explicit function parameters;
* exceptions become `Except`; the random tie-breaking coin of
  `newMakeDivisible` becomes an explicit `Bool` argument.
-/
import Mathlib

namespace HelibVerify

/-! ## Secret-key handles (`include/helib/Ctxt.h`, class `SKHandle`)

An `SKHandle (a, t, k)` identifies the secret-key polynomial `s_k^a(X^t)`.
The C++ fields are `powerOfS`, `powerOfX`, `secretKeyID` (all `long`). -/

structure SKHandle where
  powerOfS : Int
  powerOfX : Int
  secretKeyID : Int
deriving DecidableEq, Repr

/-- `SKHandle::isOne`: `powerOfS == 0`. -/
def SKHandle.isOne (h : SKHandle) : Bool := h.powerOfS = 0

/-- `SKHandle::mul(a, b)` from `Ctxt.h` lines 156-187.  The C++ method
mutates `*this` (whose prior value is `self`) and returns a success flag;
we return the pair (new value of `*this`, flag).  On the failure paths the
code only overwrites `secretKeyID` with `-1`, keeping the other two fields
of the previous `*this` value. -/
def SKHandle.mul (self a b : SKHandle) : SKHandle × Bool :=
  if a.isOne then
    (b, decide (b.secretKeyID ≥ 0))
  else if b.isOne then
    (a, decide (a.secretKeyID ≥ 0))
  else if a.secretKeyID = -1 ∨ b.secretKeyID = -1 then
    ({ self with secretKeyID := -1 }, false)
  else if a.secretKeyID ≠ b.secretKeyID then
    ({ self with secretKeyID := -1 }, false)
  else if a.powerOfX ≠ b.powerOfX then
    ({ self with secretKeyID := -1 }, false)
  else
    (⟨a.powerOfS + b.powerOfS, a.powerOfX, a.secretKeyID⟩, true)

/-! ## `newMakeDivisible` (`src/recryption.cpp` lines 81-144)

The routine converts the polynomial to the powerful basis (an external
invertible linear map, out of scope per the spec), applies the
per-coefficient correction below to every powerful-basis coefficient, and
converts back.  We embed the per-coefficient correction exactly; the random
`NTL::RandomBnd(2)` draw at a tie becomes the explicit argument `coin`. -/

/-- The multiplier `v` computed for one powerful-basis coefficient `z`:
`zMod = rem(z, p2e) ∈ [0, p2e)`; then `v = p2e - zMod` if
`zMod > p2e/2` (truncated division) or a coin-decided tie at `p = 2`,
else `v = -zMod`. -/
def makeDivisibleV (p p2e : Int) (coin : Bool) (z : Int) : Int :=
  if z % p2e > p2e / 2 ∨ (p = 2 ∧ z % p2e = p2e / 2 ∧ coin) then
    p2e - z % p2e
  else -(z % p2e)

/-- One coefficient of `newMakeDivisible`: `z ← z + q * v`. -/
def makeDivisibleCoeff (p p2e q : Int) (coin : Bool) (z : Int) : Int :=
  z + q * makeDivisibleV p p2e coin z

/-- `newMakeDivisible` on the powerful-basis coefficient vector: the early
return leaves the vector unchanged when `p2e = 1`, otherwise every
coefficient is corrected (with its own coin). -/
def newMakeDivisible (p p2e q : Int) (coins : List Bool) (pwrfl : List Int) :
    List Int :=
  if p2e = 1 then pwrfl
  else List.zipWith (makeDivisibleCoeff p p2e q) coins pwrfl

/-! ## The hard-coded multivariate cascade
(`src/recryption.cpp`, `rowComputationMultivariate`, lines 870-929)

Ciphertexts are modelled by the plaintext value they carry, in an arbitrary
commutative ring: `Ctxt.square` is squaring, `Ctxt.multByConstant c` is
multiplication by `c`, `Ctxt.addCtxt other (negative := true)` is
subtraction, `Ctxt.multiplyBy` is multiplication.  Each `let` below mirrors
one statement of the C++ routine; the `ctxtEval` entries pushed by the code
become `c0, c1, c2, c3` and the scratch ciphertexts become `t…`.  The C++
guards `rowSize >= 2/3/5/9` are nested here, which is equivalent because
the thresholds are increasing. -/

variable {R : Type} [CommRing R]

/-- `rowComputationMultivariate`: the list of `(ciphertext, precision)`
pairs appended to `ctxtEval` for input ciphertext `x` and the given
`rowSize`. -/
def rowComputationMultivariate (x : R) (rowSize : Int) : List (R × Int) :=
  if 2 ≤ rowSize then
    let c0 := x * x                  -- push (ctxt, 2); square
    if 3 ≤ rowSize then
      let c1 := c0 * c0              -- push (ctxtEval[0], 4); square
      if 5 ≤ rowSize then
        let c2a := c0 * 112          -- push (ctxtEval[0], 8); multByConstant 112
        let t1a := c0 * 94           -- tmp1 = ctxtEval[0]; multByConstant 94
        let t2a := c1 * 121          -- tmp2 = ctxtEval[1]; multByConstant 121
        let t1b := t1a + t2a         -- tmp1.addCtxt(tmp2)
        let t1c := t1b * t1b         -- tmp1.square()
        let c2 := c2a + t1c          -- ctxtEval[2].addCtxt(tmp1)
        if 9 ≤ rowSize then
          let c3a := c1 * 11136      -- push (ctxtEval[1], 16); multByConstant 11136
          let t1d := c1 * 15364      -- tmp1 = ctxtEval[1]; multByConstant 15364
          let t2b := c2 * 14115      -- tmp2 = ctxtEval[2]; multByConstant 14115
          let t1e := t1d - t2b       -- tmp1.addCtxt(tmp2, true)
          let t2c := c0 * 28504      -- tmp2 = ctxtEval[0]; multByConstant 28504
          let t3a := c1 * 8968       -- tmp3 = ctxtEval[1]; multByConstant 8968
          let t2d := t2c + t3a       -- tmp2.addCtxt(tmp3)
          let t2e := t2d - c2        -- tmp2.addCtxt(ctxtEval[2], true)
          let t1f := t1e * t2e       -- tmp1.multiplyBy(tmp2)
          let c3 := c3a - t1f        -- ctxtEval[3].addCtxt(tmp1, true)
          [(c0, 2), (c1, 4), (c2, 8), (c3, 16)]
        else [(c0, 2), (c1, 4), (c2, 8)]
      else [(c0, 2), (c1, 4)]
    else [(c0, 2)]
  else []

/-! Reference closed forms, written from the specification text
(spec §4.3.1): `f8 = 112·x^2 + (94·x^2 + 121·x^4)^2`,
`f16 = 11136·x^4 − (15364·x^4 − 14115·f8) · (28504·x^2 + 8968·x^4 − f8)`. -/

/-- Spec reference polynomial `f2 = x^2`. -/
def f2Spec (x : R) : R := x ^ 2

/-- Spec reference polynomial `f4 = x^4`. -/
def f4Spec (x : R) : R := x ^ 4

/-- Spec reference polynomial `f8`. -/
def f8Spec (x : R) : R := 112 * x ^ 2 + (94 * x ^ 2 + 121 * x ^ 4) ^ 2

/-- Spec reference polynomial `f16`. -/
def f16Spec (x : R) : R :=
  11136 * x ^ 4 -
    (15364 * x ^ 4 - 14115 * f8Spec x) *
      (28504 * x ^ 2 + 8968 * x ^ 4 - f8Spec x)

/-- The spec's predicted output of the multivariate row computation: the
evaluations of `f2, f4, f8, f16` at `x`, tagged with precisions
`2, 4, 8, 16`, keeping only the results needed for the given row size. -/
def rowSpecList (x : R) (rowSize : Int) : List (R × Int) :=
  (if 2 ≤ rowSize then [(f2Spec x, 2)] else []) ++
  (if 3 ≤ rowSize then [(f4Spec x, 4)] else []) ++
  (if 5 ≤ rowSize then [(f8Spec x, 8)] else []) ++
  (if 9 ≤ rowSize then [(f16Spec x, 16)] else [])

/-! ## Row computation dispatch
(`src/recryption.cpp`, `rowComputationGeneral`, lines 991-1004)

The composition strategy (`rowComputationComposition`) evaluates lifting
polynomials loaded from the on-disk cache (`Magma_declare.h` data and the
`polynomials/` directory, neither of which is part of the given sources),
so it enters the model as the function parameter `comp` with arguments
(input ciphertext, triangle size, row size, previous inner exponent). -/

/-- The loop body of `rowComputationGeneral`: process the consecutive
pairs `(e_inner_previous, e_inner)` of the (extended) compose list,
appending either the multivariate cascade results or the composition
results to the accumulator.  The C++ reads `ctxtEval.back()` as input of
each stage. -/
def rowCompSteps (comp : R → Int → Int → Int → List (R × Int)) (p : Int)
    (triangleSize rowSize : Int) :
    List (R × Int) → List (Int × Int) → List (R × Int)
  | acc, [] => acc
  | acc, (ePrev, e) :: rest =>
      let last := acc.getLastD (0, 0)
      let step :=
        if p = 2 ∧ ePrev = 1 ∧ e ≤ 16 then
          rowComputationMultivariate last.1 (min rowSize e)
        else
          comp last.1 (min triangleSize e) (min rowSize e) ePrev
      rowCompSteps comp p triangleSize rowSize (acc ++ step) rest

/-- `rowComputationGeneral`: append `rowSize` to the compose list, seed
`ctxtEval` with `(ctxt, front of the list)`, then run the stage loop over
consecutive pairs of the extended list. -/
def rowComputationGeneral (comp : R → Int → Int → Int → List (R × Int))
    (p : Int) (x : R) (triangleSize rowSize : Int) (eList : List Int) :
    List (R × Int) :=
  let l := eList ++ [rowSize]
  rowCompSteps comp p triangleSize rowSize [(x, l.headD 0)] (l.zip l.tail)

lemma rowComputationMultivariate_eq_spec (x : R) (rowSize : Int) :
    rowComputationMultivariate x rowSize = rowSpecList x rowSize := by
  simp only [rowComputationMultivariate, rowSpecList, f2Spec, f4Spec,
    f16Spec, f8Spec]
  split_ifs with h2 h3 h5 h9 <;>
    simp only [List.cons_append, List.nil_append, List.cons.injEq,
      Prod.mk.injEq, and_true, List.nil_eq, List.append_nil] <;>
    try omega
  all_goals repeat' apply And.intro
  all_goals ring

/-- C1: with `p = 2`, input precision exponent `e_inner = 1` (compose list
`[1]`) and target precision (= row size) at most 16, `rowComputationGeneral`
dispatches to the hard-coded multivariate cascade — the result does not
depend on the composition-strategy parameter `comp` — and the produced
ciphertexts are exactly the evaluations at `x` of the spec's reference
polynomials `f2, f4, f8, f16`, tagged with precisions `2, 4, 8, 16`, gated
by the row size. -/
theorem claim_C1 (comp : R → Int → Int → Int → List (R × Int)) (x : R)
    (triangleSize rowSize : Int) (h : rowSize ≤ 16) :
    rowComputationGeneral comp 2 x triangleSize rowSize [1] =
      (x, 1) :: rowSpecList x rowSize := by
  unfold rowComputationGeneral
  simp only [List.cons_append, List.nil_append, List.headD_cons,
    List.tail_cons, List.zip_cons_cons, List.zip_nil_right]
  rw [rowCompSteps]
  simp only [List.getLastD_cons, List.getLastD_nil]
  rw [if_pos (⟨trivial, trivial, h⟩ : True ∧ True ∧ rowSize ≤ 16)]
  rw [rowCompSteps]
  rw [min_self, rowComputationMultivariate_eq_spec]
  simp only [List.cons_append, List.nil_append]

/-- Witness for C1 at `R = Int`, `x = 3`, `rowSize = 16`. -/
theorem claim_C1_witness :
    (16 : Int) ≤ 16 ∧
      rowComputationGeneral (fun _ _ _ _ => ([] : List (Int × Int))) 2
          (3 : Int) 5 16 [1] =
        ((3 : Int), 1) :: rowSpecList (3 : Int) 16 :=
  ⟨by decide, claim_C1 _ 3 5 16 (by decide)⟩

/-! ## The trapezoid digit-extraction loop
(`src/recryption.cpp`, `customExtractDigitsThin`, lines 1007-1053)

Ciphertexts are modelled by the integer plaintext value they carry:
`addConstant` is addition, `addCtxt(other, true)` subtraction, `negate`
negation, and `divideByP` division by `p` (exact on the multiples of `p`
that the caller contract guarantees; all integer division flavours agree
there). -/

/-- The `p = 2` correction constant `lround(pow(2, botHigh) / 2)`
(`2^(botHigh-1)`, and `lround(0.5) = 1` for `botHigh = 0`). -/
def p2CorrectionConst (botHigh : ℕ) : Int :=
  if botHigh = 0 then 1 else 2 ^ (botHigh - 1)

/-- One iteration of the `for (int row = 0; ...)` loop of
`customExtractDigitsThin`.  The state is the pair
(`ctxtRows` with its precision tags, the running result ciphertext
`ctxt`). -/
def extractRowBody (comp : Int → Int → Int → Int → List (Int × Int))
    (p : Int) (botHigh r : ℕ) (eLists : List (List Int))
    (st : List (Int × Int) × Int) (row : ℕ) : List (Int × Int) × Int :=
  let rows := st.1
  let c := st.2
  -- evaluate the necessary polynomials only
  let ctxtEval := rowComputationGeneral comp p (rows.getD row (0, 0)).1
      ((botHigh : Int) - row) ((botHigh : Int) + r - row)
      (eLists.getD (min row (eLists.length - 1)) [])
  -- determine starting values for the next rows
  let rows := (List.range' (row + 1) (botHigh - (row + 1))).foldl
    (fun rs nextRow =>
      if row + 1 < nextRow ∧
          ((nextRow : Int) + 1 ≤ (rs.getD (nextRow - 1) (0, 0)).2 + row + 1) then
        rs.set nextRow (rs.getD (nextRow - 1) (0, 0))
      else
        match ctxtEval.find? (fun tup => decide ((nextRow : Int) + 1 ≤ tup.2 + row)) with
        | some tup =>
            let cur := rs.getD nextRow (0, 0)
            rs.set nextRow ((cur.1 - tup.1) / p, min cur.2 tup.2 - 1)
        | none => rs) rows
  -- finally compute the result of this row
  let c :=
    if row + 1 < botHigh ∧
        ((botHigh : Int) + r ≤ (rows.getLastD (0, 0)).2 + row + 1) then
      (rows.getLastD (0, 0)).1
    else (c - (ctxtEval.getLastD (0, 0)).1) / p
  (rows, c)

/-- The row loop of `customExtractDigitsThin` alone (no `p = 2` correction
constant, no final negation), as a standalone function of the
(possibly pre-corrected) input ciphertext. -/
def extractTrapezoid (comp : Int → Int → Int → Int → List (Int × Int))
    (p : Int) (botHigh r : ℕ) (eLists : List (List Int)) (x : Int) : Int :=
  ((List.range botHigh).foldl (extractRowBody comp p botHigh r eLists)
    (List.replicate botHigh (x, (botHigh : Int) + r), x)).2

/-- `customExtractDigitsThin` as implemented: add the correction constant
when `p = 2`, run the trapezoid row loop, and negate the final result
unconditionally ("necessary due to different version of homomorphic inner
product in HElib"). -/
def customExtractDigitsThin (comp : Int → Int → Int → Int → List (Int × Int))
    (p : Int) (botHigh r : ℕ) (eLists : List (List Int)) (x : Int) : Int :=
  let x0 := if p = 2 then x + p2CorrectionConst botHigh else x;
  -((List.range botHigh).foldl (extractRowBody comp p botHigh r eLists)
      (List.replicate botHigh (x0, (botHigh : Int) + r), x0)).2

/-- The behaviour asserted by claim C4 (written from the claim): the
correction constant *and* the final negation are applied when `p = 2`, and
for every other prime neither is applied. -/
def customExtractDigitsThinClaim
    (comp : Int → Int → Int → Int → List (Int × Int))
    (p : Int) (botHigh r : ℕ) (eLists : List (List Int)) (x : Int) : Int :=
  if p = 2 then
    let x0 := x + p2CorrectionConst botHigh;
    -((List.range botHigh).foldl (extractRowBody comp p botHigh r eLists)
        (List.replicate botHigh (x0, (botHigh : Int) + r), x0)).2
  else
    ((List.range botHigh).foldl (extractRowBody comp p botHigh r eLists)
      (List.replicate botHigh (x, (botHigh : Int) + r), x)).2

/-- C4 counterexample: at `p = 3` (with `botHigh = r = 1`, compose list
`[1]`, the cube as composition-stage lifting polynomial, input value `2`)
the implementation negates the final result, while the claim predicts the
un-negated trapezoid value: the two differ. -/
theorem claim_C4_counterexample :
    customExtractDigitsThin (fun x _ rs _ => [(x ^ 3, rs)]) 3 1 1 [[1]] 2 = 2 ∧
    customExtractDigitsThinClaim (fun x _ rs _ => [(x ^ 3, rs)]) 3 1 1 [[1]] 2
      = -2 ∧ (2 : Int) ≠ -2 := by
  refine ⟨by decide, by decide, by decide⟩

/-- C4 amended: when `p = 2` the constant `p^botHigh / 2` is added to the
input before the row loop; the final negation is applied for *every* `p`
(not only `p = 2`); for `p ≠ 2` no constant is added. -/
theorem claim_C4 (comp : Int → Int → Int → Int → List (Int × Int))
    (p : Int) (botHigh r : ℕ) (eLists : List (List Int)) (x : Int) :
    (p = 2 → customExtractDigitsThin comp p botHigh r eLists x =
      -extractTrapezoid comp p botHigh r eLists (x + p2CorrectionConst botHigh)) ∧
    (p ≠ 2 → customExtractDigitsThin comp p botHigh r eLists x =
      -extractTrapezoid comp p botHigh r eLists x) := by
  unfold customExtractDigitsThin extractTrapezoid
  constructor
  · intro hp; rw [if_pos hp]
  · intro hp; rw [if_neg hp]

/-- Witness for C4 at `p = 3`. -/
theorem claim_C4_witness :
    (3 : Int) ≠ 2 ∧
      customExtractDigitsThin (fun x _ rs _ => [(x ^ 3, rs)]) 3 1 1 [[1]] 2 =
        -extractTrapezoid (fun x _ rs _ => [(x ^ 3, rs)]) 3 1 1 [[1]] 2 :=
  ⟨by decide, (claim_C4 _ 3 1 1 [[1]] 2).2 (by decide)⟩

/-! ## The digit-extraction entry point
(`src/recryption.cpp`, `extractDigitsThin`, lines 1056-1066 and on)

When `ePrime < r` the routine prints a diagnostic warning and then, if
`our_version` is set, throws a `RuntimeError`; otherwise it dispatches to
`customExtractDigitsThin` (`our_version`) or to HElib's built-in extractor
(modelled by the parameter `builtin`; its internals are not relevant to
claim C7).  The `lazy` flag only reaches the Paterson-Stockmeyer engine
inside the composition stage, which the `comp` parameter absorbs. -/

/-- `extractDigitsThin`: returns (warning emitted?, outcome). -/
def extractDigitsThin (builtin : Int → Int)
    (comp : Int → Int → Int → Int → List (Int × Int)) (p : Int)
    (ourVersion : Bool) (botHigh r : ℕ) (ePrime : Int)
    (eLists : List (List Int)) (x : Int) : Bool × Except String Int :=
  let warned := decide (ePrime < (r : Int))
  let result : Except String Int :=
    if ePrime < (r : Int) ∧ ourVersion = true then
      .error "Bad parameter choice. See warning above."
    else if ourVersion = true then
      .ok (customExtractDigitsThin comp p botHigh r eLists x)
    else .ok (builtin x)
  (warned, result)

/-- C7 counterexample: with `ePrime = 1 < r = 2` and `our_version` set
(the repository's own digit-extraction path), the warning is emitted but
extraction does *not* proceed: a `RuntimeError` is thrown. -/
theorem claim_C7_counterexample :
    extractDigitsThin (fun z => z) (fun x _ rs _ => [(x ^ 3, rs)]) 3 true
        1 2 1 [[1]] 2 =
      (true, Except.error "Bad parameter choice. See warning above.") := by
  rfl

/-- C7 amended: the diagnostic warning is emitted exactly when
`ePrime < r`; extraction proceeds unless `our_version` is set with
`ePrime < r`, in which case a `RuntimeError` is raised; for `ePrime ≥ r`
no warning is emitted and extraction proceeds on the selected path. -/
theorem claim_C7 (builtin : Int → Int)
    (comp : Int → Int → Int → Int → List (Int × Int)) (p : Int)
    (ourVersion : Bool) (botHigh r : ℕ) (ePrime : Int)
    (eLists : List (List Int)) (x : Int) :
    ((extractDigitsThin builtin comp p ourVersion botHigh r ePrime eLists x).1
        = true ↔ ePrime < (r : Int)) ∧
    (ePrime < (r : Int) → ourVersion = true →
      (extractDigitsThin builtin comp p ourVersion botHigh r ePrime eLists x).2
        = .error "Bad parameter choice. See warning above.") ∧
    (¬ePrime < (r : Int) → ourVersion = true →
      (extractDigitsThin builtin comp p ourVersion botHigh r ePrime eLists x).2
        = .ok (customExtractDigitsThin comp p botHigh r eLists x)) ∧
    (ourVersion = false →
      (extractDigitsThin builtin comp p ourVersion botHigh r ePrime eLists x).2
        = .ok (builtin x)) := by
  unfold extractDigitsThin
  refine ⟨by simp, ?_, ?_, ?_⟩
  · intro h1 h2; rw [if_pos ⟨h1, h2⟩]
  · intro h1 h2
    rw [if_neg (by exact fun hc => h1 hc.1), if_pos h2]
  · intro h
    rw [if_neg (by simp [h]), if_neg (by simp [h])]

/-- Witness for C7 at `ePrime = 3 ≥ r = 2`, `our_version` set. -/
theorem claim_C7_witness :
    ((extractDigitsThin (fun z => z) (fun x _ rs _ => [(x ^ 3, rs)]) 3 true
        1 2 3 [[1]] 2).1 = true ↔ (3 : Int) < (2 : ℕ)) ∧
    ((3 : Int) < (2 : ℕ) → true = true →
      (extractDigitsThin (fun z => z) (fun x _ rs _ => [(x ^ 3, rs)]) 3 true
        1 2 3 [[1]] 2).2 = .error "Bad parameter choice. See warning above.") ∧
    (¬(3 : Int) < (2 : ℕ) → true = true →
      (extractDigitsThin (fun z => z) (fun x _ rs _ => [(x ^ 3, rs)]) 3 true
        1 2 3 [[1]] 2).2 =
        .ok (customExtractDigitsThin (fun x _ rs _ => [(x ^ 3, rs)]) 3 1 2
          [[1]] 2)) ∧
    (true = false →
      (extractDigitsThin (fun z => z) (fun x _ rs _ => [(x ^ 3, rs)]) 3 true
        1 2 3 [[1]] 2).2 = .ok 2) :=
  claim_C7 (fun z => z) (fun x _ rs _ => [(x ^ 3, rs)]) 3 true 1 2 3 [[1]] 2

/-- C8 counterexample: with `h1 = (1, 1, 0)` and `h2 = (0, 2, 0)` (a "one"
handle), the powers of X differ (`1 ≠ 2`) and yet multiplication succeeds,
returning `h1` — the claim's "exactly when `t = t'` and `k = k'`" fails. -/
theorem claim_C8_counterexample :
    SKHandle.mul ⟨0, 0, 0⟩ ⟨1, 1, 0⟩ ⟨0, 2, 0⟩ = (⟨1, 1, 0⟩, true) ∧
      (1 : Int) ≠ 2 := by
  exact ⟨by decide, by decide⟩

/-- C8 amended: when either input is "one" the product is the other input,
succeeding exactly when that input's key id is nonnegative; when neither is
"one", multiplication succeeds exactly when the powers of X agree and the
key ids agree and are not the `-1` error sentinel, yielding
`(a + a', t, k)`; every failure is reported by key id `-1` together with a
`false` return value. -/
theorem claim_C8 (self a b : SKHandle) :
    (a.isOne = true →
      SKHandle.mul self a b = (b, decide (0 ≤ b.secretKeyID))) ∧
    (a.isOne = false → b.isOne = true →
      SKHandle.mul self a b = (a, decide (0 ≤ a.secretKeyID))) ∧
    (a.isOne = false → b.isOne = false →
      ((SKHandle.mul self a b).2 = true ↔
        a.powerOfX = b.powerOfX ∧ a.secretKeyID = b.secretKeyID ∧
          a.secretKeyID ≠ -1) ∧
      ((SKHandle.mul self a b).2 = true →
        SKHandle.mul self a b =
          (⟨a.powerOfS + b.powerOfS, a.powerOfX, a.secretKeyID⟩, true)) ∧
      ((SKHandle.mul self a b).2 = false →
        (SKHandle.mul self a b).1.secretKeyID = -1)) := by
  refine ⟨?_, ?_, ?_⟩
  · intro ha
    simp [SKHandle.mul, ha, ge_iff_le]
  · intro ha hb
    simp [SKHandle.mul, ha, hb, ge_iff_le]
  · intro ha hb
    simp only [SKHandle.mul, ha, hb, Bool.false_eq_true, if_false]
    split_ifs with h1 h2 h3 <;> simp_all <;> omega

/-- Witness for C8: two base handles of key 0 multiply to `(2, 1, 0)`. -/
theorem claim_C8_witness :
    SKHandle.mul ⟨0, 0, 0⟩ ⟨1, 1, 0⟩ ⟨1, 1, 0⟩ = (⟨2, 1, 0⟩, true) :=
  ((claim_C8 ⟨0, 0, 0⟩ ⟨1, 1, 0⟩ ⟨1, 1, 0⟩).2.2 (by decide) (by decide)).2.1
    (by decide)

lemma makeDivisibleV_bound (p p2e : Int) (coin : Bool) (z : Int)
    (hp2e : 1 < p2e) (hpow : ∃ e : ℕ, p2e = p ^ e) :
    2 * |makeDivisibleV p p2e coin z| ≤ p2e := by
  have h0 : (0 : Int) < p2e := by omega
  have hnn : 0 ≤ z % p2e := Int.emod_nonneg z (by omega)
  have hlt : z % p2e < p2e := Int.emod_lt_of_pos z h0
  unfold makeDivisibleV
  split_ifs with h
  · rcases h with h | ⟨hp, htie, -⟩
    · rw [abs_of_nonneg (by omega)]; omega
    · have heven : p2e % 2 = 0 := by
        obtain ⟨e, he⟩ := hpow
        subst hp he
        rcases e with - | e
        · norm_num at hp2e
        · rw [pow_succ]
          simp [Int.mul_emod]
      rw [abs_of_nonneg (by omega)]; omega
  · rw [abs_of_nonpos (by omega)]; omega

lemma makeDivisibleCoeff_dvd (p p2e q : Int) (coin : Bool) (z : Int)
    (h0 : 0 < p2e) (hq : q % p2e = 1) :
    p2e ∣ makeDivisibleCoeff p p2e q coin z := by
  have h1 : p2e ∣ z - z % p2e := Int.dvd_sub_of_emod_eq rfl
  have h2 : p2e ∣ q - 1 := Int.dvd_sub_of_emod_eq hq
  unfold makeDivisibleCoeff makeDivisibleV
  split_ifs with h
  · have hrw : z + q * (p2e - z % p2e) =
        (z - z % p2e) - (q - 1) * (z % p2e) + p2e * q := by ring
    rw [hrw]
    exact dvd_add (dvd_sub h1 (h2.mul_right _)) (dvd_mul_right _ _)
  · have hrw : z + q * -(z % p2e) = (z - z % p2e) - (q - 1) * (z % p2e) := by
      ring
    rw [hrw]
    exact dvd_sub h1 (h2.mul_right _)

/-- C3: for a modulus power `p2e = p^ePrime ≥ 1` and `q > 0` with
`q ≡ 1 (mod p2e)`, `newMakeDivisible` (i) leaves the vector unchanged when
`p2e = 1`, (ii) otherwise turns each powerful-basis coefficient `z_i` into
`z_i + v_i·q` with `2·|v_i| ≤ p2e` and `p2e ∣ z_i + v_i·q`, (iii) is
deterministic (coin-independent) when `p ≠ 2`, and (iv) for `p = 2` breaks
the tie `z_i mod p2e = p2e/2` by the random coin, adding
`(p2e − p2e/2)·q` or `−(p2e/2)·q` according to the draw. -/
theorem claim_C3 (p p2e q : Int) (coins : List Bool) (pwrfl : List Int)
    (hpow : ∃ e : ℕ, p2e = p ^ e) (hp2e : 1 ≤ p2e) (hq : 0 < q)
    (hmod : q % p2e = 1) :
    (p2e = 1 → newMakeDivisible p p2e q coins pwrfl = pwrfl) ∧
    (1 < p2e → ∀ i : ℕ, i < coins.length → i < pwrfl.length →
      ∃ v : Int,
        (newMakeDivisible p p2e q coins pwrfl).getD i 0 =
            pwrfl.getD i 0 + v * q ∧
          2 * |v| ≤ p2e ∧
          p2e ∣ (newMakeDivisible p p2e q coins pwrfl).getD i 0) ∧
    (p ≠ 2 → ∀ (c c' : Bool) (z : Int),
      makeDivisibleCoeff p p2e q c z = makeDivisibleCoeff p p2e q c' z) ∧
    (p = 2 → 1 < p2e → ∀ z : Int, z % p2e = p2e / 2 →
      makeDivisibleCoeff p p2e q true z = z + (p2e - p2e / 2) * q ∧
      makeDivisibleCoeff p p2e q false z = z - (p2e / 2) * q) := by
  refine ⟨?_, ?_, ?_, ?_⟩
  · intro h1; simp [newMakeDivisible, h1]
  · intro h1 i hci hpi
    have hne : p2e ≠ 1 := by omega
    have hlen : i < (List.zipWith (makeDivisibleCoeff p p2e q) coins pwrfl).length := by
      simp only [List.length_zipWith]; omega
    refine ⟨makeDivisibleV p p2e (coins.getD i false) (pwrfl.getD i 0),
      ?_, ?_, ?_⟩
    · rw [newMakeDivisible, if_neg hne, List.getD_eq_getElem _ _ hlen,
        List.getElem_zipWith, ← List.getD_eq_getElem coins false (by omega),
        ← List.getD_eq_getElem pwrfl 0 (by omega)]
      unfold makeDivisibleCoeff
      ring
    · exact makeDivisibleV_bound p p2e _ _ h1 hpow
    · rw [newMakeDivisible, if_neg hne, List.getD_eq_getElem _ _ hlen,
        List.getElem_zipWith, ← List.getD_eq_getElem coins false (by omega),
        ← List.getD_eq_getElem pwrfl 0 (by omega)]
      exact makeDivisibleCoeff_dvd p p2e q _ _ (by omega) hmod
  · intro hp c c' z
    unfold makeDivisibleCoeff makeDivisibleV
    rcases c <;> rcases c' <;> simp [hp]
  · intro hp h1 z htie
    constructor
    · unfold makeDivisibleCoeff makeDivisibleV
      rw [if_pos (Or.inr ⟨hp, htie, rfl⟩), htie]
      ring
    · unfold makeDivisibleCoeff makeDivisibleV
      rw [if_neg (by simp [htie])]
      rw [htie]; ring

/-- Witness for C3 at `p = 2`, `p2e = 4`, `q = 5`, one tie coefficient. -/
theorem claim_C3_witness :
    ((4 : Int) = 1 → newMakeDivisible 2 4 5 [true] [2] = [2]) ∧
    ((1 : Int) < 4 → ∀ i : ℕ, i < [true].length → i < [(2 : Int)].length →
      ∃ v : Int,
        (newMakeDivisible 2 4 5 [true] [2]).getD i 0 =
            [(2 : Int)].getD i 0 + v * 5 ∧
          2 * |v| ≤ 4 ∧ (4 : Int) ∣ (newMakeDivisible 2 4 5 [true] [2]).getD i 0) ∧
    ((2 : Int) ≠ 2 → ∀ (c c' : Bool) (z : Int),
      makeDivisibleCoeff 2 4 5 c z = makeDivisibleCoeff 2 4 5 c' z) ∧
    ((2 : Int) = 2 → (1 : Int) < 4 → ∀ z : Int, z % 4 = 4 / 2 →
      makeDivisibleCoeff 2 4 5 true z = z + (4 - 4 / 2) * 5 ∧
      makeDivisibleCoeff 2 4 5 false z = z - 4 / 2 * 5) :=
  claim_C3 2 4 5 [true] [2] ⟨2, by norm_num⟩ (by norm_num) (by norm_num)
    (by norm_num)

/-! ## The lifting-polynomial cache loader
(`src/polyEval.cpp`, `parsePolynomial` lines 1137-1150 and
`init_polynomials` lines 1152-1173)

A file is modelled by `Option (List Int)`: `none` when the file does not
exist, `some toks` for the list of its whitespace-separated tokens (each
token, a nonempty decimal string, is modelled by the integer NTL's
`to_ZZ` parses from it).  `SetCoeff(poly, index++, tok)` at consecutive
indices `0, 1, 2, …` makes the coefficient list equal to the token list
itself (ascending degree).  The supported primes and inner exponents come
from `Magma_declare.h` / `Magma_define.h`, which are not among the given
sources; they enter as the list parameters. -/

/-- `parsePolynomial`: fails iff the file cannot be opened; otherwise the
tokens become the coefficients in ascending degree order until EOF.  In
particular an existing empty file parses to the zero polynomial `[]`. -/
def parsePolynomial (file : Option (List Int)) : Except String (List Int) :=
  match file with
  | none => .error "Polynomial file does not exist."
  | some toks => .ok toks

/-- The inner loop of `init_polynomials` for one `(p, e_inner)` pair:
load files for consecutive `e` starting at the given index, stopping at
the first missing file.  (Each loaded file was just checked to exist, so
`parsePolynomial` yields its token list; `fuel` bounds the unbounded C++
`for (;;e++)` loop and is irrelevant as long as a missing file occurs
within it.) -/
def loadPolyRun (files : Int → Option (List Int)) : ℕ → Int → List (List Int)
  | 0, _ => []
  | fuel + 1, e =>
    match files e with
    | none => []
    | some toks => toks :: loadPolyRun files fuel (e + 1)

/-- `init_polynomials`: the two outer loops over the closed lists of
supported primes and inner exponents; each cell gets the consecutive run
of files starting at `e_inner + 1`. -/
def initPolynomials (files : Int → Int → Int → Option (List Int))
    (primesList eInnerList : List Int) (fuel : ℕ) :
    List (List (List (List Int))) :=
  primesList.map fun p =>
    eInnerList.map fun eInner =>
      loadPolyRun (files p eInner) fuel (eInner + 1)

lemma loadPolyRun_eq (files : Int → Option (List Int)) (start : Int)
    (n fuel : ℕ) (content : ℕ → List Int)
    (hsome : ∀ k : ℕ, k < n → files (start + k) = some (content k))
    (hnone : files (start + n) = none) (hfuel : n < fuel) :
    loadPolyRun files fuel start = (List.range n).map content := by
  induction n generalizing start content fuel with
  | zero =>
      obtain ⟨f, rfl⟩ : ∃ f, fuel = f + 1 := ⟨fuel - 1, by omega⟩
      have h0 : files start = none := by simpa using hnone
      simp [loadPolyRun, h0]
  | succ n ih =>
      obtain ⟨f, rfl⟩ : ∃ f, fuel = f + 1 := ⟨fuel - 1, by omega⟩
      have h0 : files start = some (content 0) := by
        simpa using hsome 0 (by omega)
      rw [loadPolyRun, h0]
      show content 0 :: loadPolyRun files f (start + 1) = _
      rw [List.range_succ_eq_map, List.map_cons, List.map_map]
      congr 1
      refine ih (start + 1) f (fun k => content (k + 1)) ?_ ?_ (by omega)
      · intro k hk
        have := hsome (k + 1) (by omega)
        rw [← this]; congr 1; push_cast; ring
      · rw [← hnone]; congr 1; push_cast; ring

/-- C9 counterexample: parsing a polynomial file that exists but is empty
*succeeds*, producing the zero polynomial, rather than failing as the
claim states. -/
theorem claim_C9_counterexample :
    parsePolynomial (some []) = Except.ok [] := rfl

/-- C9 amended: a *missing* file is an error, while an existing empty file
parses successfully to the zero polynomial; files are read as
whitespace-separated coefficients in ascending degree order until EOF; and
for each supported `(p, e_inner)` pair, consecutive files starting at
`e_inner + 1` are loaded until the first missing one. -/
theorem claim_C9 (files : Int → Option (List Int)) (start : Int)
    (n fuel : ℕ) (content : ℕ → List Int)
    (hsome : ∀ k : ℕ, k < n → files (start + k) = some (content k))
    (hnone : files (start + n) = none) (hfuel : n < fuel) :
    parsePolynomial none = .error "Polynomial file does not exist." ∧
    (∀ toks : List Int, parsePolynomial (some toks) = .ok toks) ∧
    loadPolyRun files fuel start = (List.range n).map content :=
  ⟨rfl, fun _ => rfl, loadPolyRun_eq files start n fuel content hsome hnone hfuel⟩

/-- Witness for C9: a run of exactly one file at index 2. -/
theorem claim_C9_witness :
    parsePolynomial none = .error "Polynomial file does not exist." ∧
    (∀ toks : List Int, parsePolynomial (some toks) = .ok toks) ∧
    loadPolyRun (fun e => if e = 2 then some [1, 2] else none) 2 2 =
      (List.range 1).map (fun _ => [1, 2]) :=
  claim_C9 (fun e => if e = 2 then some [1, 2] else none) 2 1 2
    (fun _ => [1, 2])
    (by intro k hk; interval_cases k <;> decide) (by decide) (by decide)

/-! ## The bootstrapping pipelines
(`src/recryption.cpp`, `PubKey::reCrypt` lines 412-616 and
`PubKey::thinReCrypt` lines 1219-1449)

A ciphertext is the list of its parts (each a secret-key handle and a
coefficient vector), the plaintext space and the integer factor — the
fields the two pipelines inspect directly.  Every operation implemented in
`Ctxt.cpp` or in the linear-map machinery (none of which is among the
given sources) is an opaque function parameter collected in `BootEnv`,
together with the context-derived scalars.  Exceptions: the noise check
throws `LogicError` in release builds (`HELIB_DEBUG` merely warns); the
`assertTrue`/`assertEq` helpers throw the assert-kind errors.  The
benchmarking repetition loop of `thinReCrypt` (`nb_iterations`) only
re-runs the same computation for timing, so one pass is modelled. -/

/-- Error kinds raised by the pipeline model. -/
inductive BootErr where
  | noiseBoundExceeded : BootErr
  | assertFail : String → BootErr
deriving DecidableEq, Repr

/-- Ciphertext model: parts (handle + coefficient vector), plaintext
space, integer factor. -/
structure MCtxt where
  parts : List (SKHandle × List Int)
  ptxtSpace : Int
  intFactor : Int
deriving DecidableEq, Repr

/-- Default part used with `getD` (never selected on the paths the
theorems speak about). -/
def dfltPart : SKHandle × List Int := (⟨0, 0, 0⟩, [])

/-- `poly.normalize()`: drop trailing zero coefficients. -/
def normalizePoly (l : List Int) : List Int :=
  (l.reverse.dropWhile (fun c => c = 0)).reverse

/-- External operations and context scalars used by `reCrypt` /
`thinReCrypt`. -/
structure BootEnv where
  p : Int
  r : Int
  p2r : Int
  e : Int
  ePrime : Int
  recryptKeyID : Int
  recryptEkey : MCtxt
  mfac : ℚ
  minCapFrac : ℚ
  boundForRecryption : ℚ
  dropSmallAndSpecialPrimes : MCtxt → MCtxt
  inCanonicalForm : MCtxt → Bool
  reLinearize : MCtxt → MCtxt
  modDownPrep : MCtxt → MCtxt
  reLinearizeTo : Int → MCtxt → MCtxt
  rawModSwitch : MCtxt → List (List Int) × ℚ
  toPwrfl : List Int → List Int
  fromPwrfl : List Int → List Int
  coins : ℕ → List Bool
  multByConstant : MCtxt → List Int → MCtxt
  addConstant : MCtxt → List Int → MCtxt
  dummyEncrypt : List Int → MCtxt
  firstMap : MCtxt → MCtxt
  secondMap : MCtxt → MCtxt
  extractPackedStage : MCtxt → Except String MCtxt
  slotToCoeff : MCtxt → MCtxt
  coeffToSlot : MCtxt → MCtxt
  bringToSet : MCtxt → MCtxt
  extractThinStage : MCtxt → Except String MCtxt

/-- The `newMakeDivisible` call on one `zzParts[i]` polynomial: convert to
the powerful basis, correct every coefficient, convert back (the early
return for `p2e = 1` skips the conversions). -/
def makeDivisiblePart (env : BootEnv) (p2e q : Int) (i : ℕ)
    (poly : List Int) : List Int :=
  if p2e = 1 then poly
  else env.fromPwrfl (newMakeDivisible env.p p2e q (env.coins i)
    (env.toPwrfl poly))

/-- The staging prefix shared by `reCrypt` up to the raw mod-switch:
drop primes, re-linearize to canonical form if needed, mod-switch down,
key-switch to the bootstrapping key. -/
def reCryptStaged (env : BootEnv) (ctxt : MCtxt) : MCtxt :=
  let c := env.dropSmallAndSpecialPrimes ctxt
  let c := if env.inCanonicalForm c then c else env.reLinearize c
  let c := env.modDownPrep c
  env.reLinearizeTo env.recryptKeyID c

/-- The staging prefix of `thinReCrypt` up to the raw mod-switch: it
additionally brings the prime set down and applies `slotToCoeff` before
the canonical-form step. -/
def thinReCryptStaged (env : BootEnv) (ctxt : MCtxt) : MCtxt :=
  let c := env.dropSmallAndSpecialPrimes ctxt
  let c := env.bringToSet c
  let c := env.slotToCoeff c
  let c := if env.inCanonicalForm c then c else env.reLinearize c
  let c := env.modDownPrep c
  env.reLinearizeTo env.recryptKeyID c

/-- The scaled-noise ratio `noise_est / noise_bnd` computed after the raw
mod-switch. -/
def noiseRatio (env : BootEnv) (c : MCtxt) : ℚ :=
  (env.rawModSwitch c).2 * env.mfac /
    (env.minCapFrac * (env.p2r : ℚ) * env.boundForRecryption)

/-- The tail of both pipelines from the raw mod-switch results onwards
(`mapsAndExtract` differs between thick and thin). -/
def bootTail (env : BootEnv) (ptxtSpace intFactor : Int)
    (zzParts : List (List Int))
    (mapsAndExtract : MCtxt → Except String MCtxt) : Except BootErr MCtxt :=
  let p2ePrime := env.p ^ env.ePrime.toNat
  let q := env.p ^ env.e.toNat + 1
  if ¬zzParts.length = 2 then
    .error (.assertFail
      "Exactly 2 parts required for mod-switching in thin bootstrapping")
  else
    -- add multiples of q to make the zzParts divisible by p^ePrime
    let zz := (List.range 2).map fun i =>
      makeDivisiblePart env p2ePrime q i (zzParts.getD i [])
    -- divide by p^ePrime (exact scalar division of the polynomial)
    let zz := zz.map fun part => part.map fun coeffc => coeffc / p2ePrime
    -- ctxt = recryptEkey; multByConstant(zzParts[1]); addConstant(zzParts[0])
    let c := env.recryptEkey
    let c := env.multByConstant c (zz.getD 1 [])
    let c := env.addConstant c (zz.getD 0 [])
    match mapsAndExtract c with
    | .error s => .error (.assertFail s)
    | .ok c =>
        -- restore intFactor
        let c := if intFactor ≠ 1 then
            { c with intFactor := c.intFactor * intFactor % ptxtSpace }
          else c
        .ok c

/-- `PubKey::reCrypt` (thick bootstrapping). -/
def reCryptModel (env : BootEnv) (ctxt : MCtxt) : Except BootErr MCtxt :=
  let ptxtSpace := ctxt.ptxtSpace
  if ctxt.parts.isEmpty then .ok ctxt
  else if ctxt.parts.length = 1 ∧ (ctxt.parts.getD 0 dfltPart).1.isOne then
    -- dummy encryption: reduce mod the plaintext space and re-encrypt
    .ok (env.dummyEncrypt (normalizePoly
      (((ctxt.parts.getD 0 dfltPart).2).map fun z => z % ptxtSpace)))
  else if ¬0 ≤ env.recryptKeyID then
    .error (.assertFail "No bootstrapping data")
  else if ¬env.r ≤ env.e then
    .error (.assertFail "rcData.e must be at least alMod.r")
  else if ¬env.p2r % ptxtSpace = 0 then
    .error (.assertFail "ptxtSpace must divide p^r when bootstrapping")
  else
    let c := reCryptStaged env ctxt
    if noiseRatio env c > 1 then .error .noiseBoundExceeded
    else
      bootTail env ptxtSpace ctxt.intFactor (env.rawModSwitch c).1
        (fun c => (env.extractPackedStage (env.firstMap c)).map env.secondMap)

/-- `PubKey::thinReCrypt` (thin bootstrapping). -/
def thinReCryptModel (env : BootEnv) (ctxt : MCtxt) : Except BootErr MCtxt :=
  let ptxtSpace := ctxt.ptxtSpace
  if ctxt.parts.isEmpty then .ok ctxt
  else if ctxt.parts.length = 1 ∧ (ctxt.parts.getD 0 dfltPart).1.isOne then
    .ok (env.dummyEncrypt (normalizePoly
      (((ctxt.parts.getD 0 dfltPart).2).map fun z => z % ptxtSpace)))
  else if ¬0 ≤ env.recryptKeyID then
    .error (.assertFail "Bootstrapping data not present")
  else if ¬env.r ≤ env.e then
    .error (.assertFail "trcData.e must be at least alMod.r")
  else if ¬env.p2r % ptxtSpace = 0 then
    .error (.assertFail "ptxtSpace must divide p^r when thin bootstrapping")
  else
    let c := thinReCryptStaged env ctxt
    if noiseRatio env c > 1 then .error .noiseBoundExceeded
    else
      bootTail env ptxtSpace ctxt.intFactor (env.rawModSwitch c).1
        (fun c => env.extractThinStage (env.coeffToSlot c))

lemma bootTail_ne_noise (env : BootEnv) (ptxtSpace intFactor : Int)
    (zzParts : List (List Int)) (f : MCtxt → Except String MCtxt) :
    bootTail env ptxtSpace intFactor zzParts f ≠
      .error BootErr.noiseBoundExceeded := by
  simp only [bootTail]
  by_cases h : zzParts.length = 2
  · rw [if_neg (not_not_intro h)]
    split <;> simp
  · rw [if_pos h]
    simp

/-- C10: both pipelines short-circuit on degenerate inputs.  An empty
ciphertext is returned unchanged; a single-part ciphertext whose handle is
"one" has its coefficients reduced modulo the plaintext space and is
re-created as a dummy encryption of the reduced (normalized) polynomial —
in both cases for *every* instantiation of the pipeline stages, i.e.
without running any of them. -/
theorem claim_C10 (env : BootEnv) (ctxt : MCtxt) :
    (ctxt.parts = [] →
      reCryptModel env ctxt = .ok ctxt ∧
      thinReCryptModel env ctxt = .ok ctxt) ∧
    (∀ (h : SKHandle) (poly : List Int), ctxt.parts = [(h, poly)] →
      h.isOne = true →
      reCryptModel env ctxt = .ok (env.dummyEncrypt (normalizePoly
          (poly.map fun z => z % ctxt.ptxtSpace))) ∧
      thinReCryptModel env ctxt = .ok (env.dummyEncrypt (normalizePoly
          (poly.map fun z => z % ctxt.ptxtSpace)))) := by
  constructor
  · intro hnil
    refine ⟨?_, ?_⟩
    · simp [reCryptModel, hnil]
    · simp [thinReCryptModel, hnil]
  · intro h poly hparts hone
    refine ⟨?_, ?_⟩
    · simp [reCryptModel, hparts, hone, dfltPart]
    · simp [thinReCryptModel, hparts, hone, dfltPart]

/-- C5: in both pipelines, once the degenerate-input and precondition
checks pass, the scaled-noise estimate after the raw mod-switch is
compared against the precomputed bound: a ratio above 1 raises the
noise-bound-exceeded error (release-build `LogicError`), and a ratio of at
most 1 never produces that error anywhere in the refresh. -/
theorem claim_C5 (env : BootEnv) (ctxt : MCtxt)
    (h1 : ctxt.parts.isEmpty = false)
    (h2 : ¬(ctxt.parts.length = 1 ∧
      (ctxt.parts.getD 0 dfltPart).1.isOne = true))
    (h3 : 0 ≤ env.recryptKeyID) (h4 : env.r ≤ env.e)
    (h5 : env.p2r % ctxt.ptxtSpace = 0) :
    (1 < noiseRatio env (reCryptStaged env ctxt) →
      reCryptModel env ctxt = .error .noiseBoundExceeded) ∧
    (noiseRatio env (reCryptStaged env ctxt) ≤ 1 →
      reCryptModel env ctxt ≠ .error .noiseBoundExceeded) ∧
    (1 < noiseRatio env (thinReCryptStaged env ctxt) →
      thinReCryptModel env ctxt = .error .noiseBoundExceeded) ∧
    (noiseRatio env (thinReCryptStaged env ctxt) ≤ 1 →
      thinReCryptModel env ctxt ≠ .error .noiseBoundExceeded) := by
  refine ⟨?_, ?_, ?_, ?_⟩
  · intro hr
    unfold reCryptModel
    simp only [h1, Bool.false_eq_true, if_false, if_neg h2,
      if_neg (not_not_intro h3), if_neg (not_not_intro h4),
      if_neg (not_not_intro h5)]
    rw [if_pos hr]
  · intro hr
    unfold reCryptModel
    simp only [h1, Bool.false_eq_true, if_false, if_neg h2,
      if_neg (not_not_intro h3), if_neg (not_not_intro h4),
      if_neg (not_not_intro h5)]
    rw [if_neg (by exact fun hc => absurd hr (not_le.mpr hc))]
    exact bootTail_ne_noise _ _ _ _ _
  · intro hr
    unfold thinReCryptModel
    simp only [h1, Bool.false_eq_true, if_false, if_neg h2,
      if_neg (not_not_intro h3), if_neg (not_not_intro h4),
      if_neg (not_not_intro h5)]
    rw [if_pos hr]
  · intro hr
    unfold thinReCryptModel
    simp only [h1, Bool.false_eq_true, if_false, if_neg h2,
      if_neg (not_not_intro h3), if_neg (not_not_intro h4),
      if_neg (not_not_intro h5)]
    rw [if_neg (by exact fun hc => absurd hr (not_le.mpr hc))]
    exact bootTail_ne_noise _ _ _ _ _

/-- A concrete pipeline environment for witnesses: identity stages, a raw
mod-switch reporting noise estimate 4 against bound 2 (ratio 2). -/
def bootEnvExample : BootEnv where
  p := 2
  r := 1
  p2r := 2
  e := 3
  ePrime := 1
  recryptKeyID := 0
  recryptEkey := ⟨[], 2, 1⟩
  mfac := 1
  minCapFrac := 1
  boundForRecryption := 1
  dropSmallAndSpecialPrimes := id
  inCanonicalForm := fun _ => true
  reLinearize := id
  modDownPrep := id
  reLinearizeTo := fun _ c => c
  rawModSwitch := fun _ => ([[0], [0]], 4)
  toPwrfl := id
  fromPwrfl := id
  coins := fun _ => []
  multByConstant := fun c _ => c
  addConstant := fun c _ => c
  dummyEncrypt := fun poly => ⟨[(⟨0, 1, 0⟩, poly)], 2, 1⟩
  firstMap := id
  secondMap := id
  extractPackedStage := fun c => .ok c
  slotToCoeff := id
  coeffToSlot := id
  bringToSet := id
  extractThinStage := fun c => .ok c

/-- A concrete two-part ciphertext for witnesses. -/
def bootCtxtExample : MCtxt := ⟨[(⟨0, 1, 0⟩, [1]), (⟨1, 1, 0⟩, [2])], 2, 1⟩

/-- Witness for C5: the example environment's noise ratio is 2 > 1 and the
thick pipeline raises the noise-bound error. -/
theorem claim_C5_witness :
    reCryptModel bootEnvExample bootCtxtExample =
      .error BootErr.noiseBoundExceeded :=
  (claim_C5 bootEnvExample bootCtxtExample (by decide) (by decide)
      (by decide) (by decide) (by decide)).1
    (by norm_num [noiseRatio, reCryptStaged, bootEnvExample, bootCtxtExample])

/-- Witness for C10: the empty ciphertext passes through both pipelines
unchanged, and a dummy single-part ciphertext is reduced and re-created. -/
theorem claim_C10_witness :
    (reCryptModel bootEnvExample ⟨[], 2, 1⟩ = .ok ⟨[], 2, 1⟩ ∧
      thinReCryptModel bootEnvExample ⟨[], 2, 1⟩ = .ok ⟨[], 2, 1⟩) ∧
    (reCryptModel bootEnvExample ⟨[(⟨0, 1, 0⟩, [5])], 2, 1⟩ =
        .ok (bootEnvExample.dummyEncrypt (normalizePoly
          ([5].map fun z => z % 2)))) :=
  ⟨(claim_C10 bootEnvExample ⟨[], 2, 1⟩).1 rfl,
    ((claim_C10 bootEnvExample ⟨[(⟨0, 1, 0⟩, [5])], 2, 1⟩).2
      ⟨0, 1, 0⟩ [5] rfl (by decide)).1⟩

/-! ## The Paterson-Stockmeyer parameter search
(`src/polyEval.cpp`, `getBestParameters` lines 471-563 and the helpers
`ceiling`, `flooring`, `floorPowerOfTwo`, `isPowerOfTwo`,
`areOddPolynomials` lines 426-467)

Polynomials are coefficient lists (`List Int`, index = degree); `deg` is
NTL's degree (`-1` for the zero polynomial).  The float helpers
`ceiling(log(d)/log(2))`, `ceiling(d / pow(2, m))` and
`flooring(log(k)/log(2))` compute exact values for every argument that can
reach them, and are modelled by `Nat.clog 2`, exact ceiling division, and
`Nat.log 2` respectively.  In `getBestParameters` the giant-step term
`ceiling(deg(polynomial) / k)` divides two *integers*, so it is plain
truncated division `deg / k`, not a real ceiling — one of the points where
the code and the claim diverge. -/

/-- NTL `deg`: index of the last nonzero coefficient, `-1` for zero. -/
def degZ (poly : List Int) : Int := (normalizePoly poly).length - 1

/-- `ceiling(a / b)` on positive integers (exact ceiling division). -/
def ceilDivPos (a b : Int) : Int := (a + b - 1) / b

/-- Floor of `log₂` on naturals, by structural recursion on a fuel that
the halving argument keeps sufficient (`floorLog2Nat n n = Nat.log 2 n`). -/
def floorLog2Nat : ℕ → ℕ → ℕ
  | 0, _ => 0
  | fuel + 1, n => if n ≤ 1 then 0 else floorLog2Nat fuel (n / 2) + 1

/-- Ceiling of `log₂` on naturals (`ceilLog2 d = Nat.clog 2 d`), by
structural recursion. -/
def ceilLog2Fuel : ℕ → ℕ → ℕ
  | 0, _ => 0
  | fuel + 1, d => if d ≤ 1 then 0 else ceilLog2Fuel fuel ((d + 1) / 2) + 1

/-- `ceiling(log(d) / log(2))` for `d ≥ 1`. -/
def ceilLog2 (d : Int) : ℕ := ceilLog2Fuel d.toNat d.toNat

/-- `flooring(log(k) / log(2))` for `k ≥ 1`. -/
def floorLog2 (k : Int) : Int := floorLog2Nat k.toNat k.toNat

/-- `floorPowerOfTwo`. -/
def floorPow2 (n : Int) : Int := 2 ^ floorLog2Nat n.toNat n.toNat

/-- `isPowerOfTwo`. -/
def isPow2 (n : Int) : Bool := floorPow2 n = n

/-- `areOddPolynomials`: no polynomial has a nonzero coefficient at an
even degree. -/
def areOddPolynomials (polys : List (List Int)) : Bool :=
  polys.all fun poly =>
    poly.enum.all fun ic => (ic.1 % 2 != 0) || (ic.2 == 0)

/-- Result record of `getBestParameters` (`PS_parameters`). -/
structure PSParams where
  m : Int
  k : Int
  multiplications : Int
  odd : Bool
deriving DecidableEq, Repr

/-- Maximum degree of the polynomial family. -/
def maxDegZ (polys : List (List Int)) : Int :=
  polys.foldl (fun d poly => max d (degZ poly)) 0

/-- The loop body of `getBestParameters` for one candidate `m`:
returns `(k, nbMultiplications, currentOdd)`, i.e. the baby-step cost
(including the odd-polynomial alternative and its `k` adjustment) plus the
per-polynomial giant-step cost. -/
def psCandidate (polys : List (List Int)) (lazy oddAll : Bool) (d : Int)
    (m : ℕ) : Int × Int × Bool :=
  let k : Int := ceilDivPos d (2 ^ m)
  let base : Int × Int × Bool :=
    if lazy then
      (k, if k = 1 then (m : Int) - 1 else (k - 1) / 2 + m, false)
    else
      let nb := if m = 0 then k - 1 else k + (m : Int) - 2
      if oddAll = true then
        if m = 0 then
          let nbOdd := k / 2 + floorLog2 k
          if nbOdd < nb then (k, nbOdd, true) else (k, nb, false)
        else
          let kOdd1 := if k % 2 = 1 then k + 1 else k
          let remExp := kOdd1 - floorPow2 (kOdd1 - 1)
          let kOdd := if kOdd1 % 4 = 0 ∧ ¬isPow2 remExp = true then kOdd1 + 2
            else kOdd1
          let nbOdd := kOdd / 2 + floorLog2 (kOdd - 1) + m - 1
          if nbOdd < nb then (kOdd, nbOdd, true) else (k, nb, false)
      else (k, nb, false)
  let kk := base.1
  let nb2 := polys.foldl (fun nb poly =>
    let nb := nb + (degZ poly / kk - 1)
    if lazy then
      let nb := nb + 1
      let dm := degZ poly % kk
      if dm ≠ 0 ∧ dm ≤ (kk + 1) / 2 then nb - 1 else nb
    else nb) base.2.1
  (kk, nb2, base.2.2)

/-- The candidate's multiplication count alone. -/
def psCandCost (polys : List (List Int)) (lazy : Bool) (m : ℕ) : Int :=
  (psCandidate polys lazy (areOddPolynomials polys) (maxDegZ polys) m).2.1

/-- The best-so-far fold of `getBestParameters`, with its `-1` sentinel
for "no candidate seen yet". -/
def bestFold (cand : ℕ → Int × Int × Bool) (n : ℕ) : PSParams :=
  (List.range n).foldl (fun best m =>
    if best.multiplications = -1 ∨ (cand m).2.1 < best.multiplications then
      ⟨(m : Int), (cand m).1, (cand m).2.1, (cand m).2.2⟩
    else best) ⟨0, 0, -1, false⟩

/-- `getBestParameters`: try every `m` in `[0, ceiling(log2 d)]` and keep
the parameters with the fewest multiplications. -/
def getBestParameters (polys : List (List Int)) (lazy : Bool) : PSParams :=
  let d := maxDegZ polys
  let oddAll := areOddPolynomials polys
  bestFold (psCandidate polys lazy oddAll d) (ceilLog2 d + 1)

/-! The cost model asserted by claim C6, written from the claim's words:
baby-step cost `k − 1` (generic non-lazy) or `⌊k/2⌋ + ⌊log₂ k⌋`
(odd-only), plus per polynomial the giant-step cost `⌈deg/k⌉ − 1`, with
one extra multiplication per polynomial under the lazy flag, minus one
when `deg mod k` is nonzero and at most `(k+1)/2`. -/

/-- The claim's multiplication count for candidate `m`. -/
def psSpecCost (polys : List (List Int)) (lazy oddAll : Bool) (d : Int)
    (m : ℕ) : Int :=
  let k := ceilDivPos d (2 ^ m)
  (if oddAll = true then k / 2 + floorLog2 k else k - 1) +
    polys.foldl (fun nb poly =>
      nb + (ceilDivPos (degZ poly) k - 1) +
        (if lazy then
          if degZ poly % k ≠ 0 ∧ degZ poly % k ≤ (k + 1) / 2 then 0 else 1
        else 0)) 0

/-- The minimal count of the claim's cost model over the candidate
range. -/
def specBestCount (polys : List (List Int)) (lazy : Bool) : Int :=
  let d := maxDegZ polys
  let oddAll := areOddPolynomials polys
  (((List.range (ceilLog2 d + 1)).map
    (psSpecCost polys lazy oddAll d)).min?).getD 0

/-- The best-so-far fold returns the first candidate attaining the
minimal count, provided no count collides with the `-1` sentinel. -/
lemma bestFold_spec (cand : ℕ → Int × Int × Bool) (n : ℕ) (hn : 0 < n)
    (hnn : ∀ m, m < n → 0 ≤ (cand m).2.1) :
    ∃ m, m < n ∧
      bestFold cand n =
        ⟨(m : Int), (cand m).1, (cand m).2.1, (cand m).2.2⟩ ∧
      (∀ j, j < n → (cand m).2.1 ≤ (cand j).2.1) ∧
      (∀ j, j < m → (cand m).2.1 < (cand j).2.1) := by
  induction n with
  | zero => omega
  | succ n ih =>
    have hstep : bestFold cand (n + 1) =
        (if (bestFold cand n).multiplications = -1 ∨
            (cand n).2.1 < (bestFold cand n).multiplications then
          ⟨(n : Int), (cand n).1, (cand n).2.1, (cand n).2.2⟩
        else bestFold cand n) := by
      unfold bestFold
      rw [List.range_succ, List.foldl_append, List.foldl_cons, List.foldl_nil]
    rcases Nat.eq_zero_or_pos n with hz | hpos
    · subst hz
      refine ⟨0, by omega, ?_, ?_, ?_⟩
      · rw [hstep]
        have hinit : bestFold cand 0 = ⟨0, 0, -1, false⟩ := rfl
        rw [hinit, if_pos (Or.inl rfl)]
      · intro j hj
        have : j = 0 := by omega
        subst this; exact le_refl _
      · intro j hj; omega
    · obtain ⟨m, hm, heq, hmin, hfirst⟩ := ih hpos fun m hm => hnn m (by omega)
      have hne : ¬(cand m).2.1 = -1 := by have := hnn m (by omega); omega
      by_cases hc : (cand n).2.1 < (cand m).2.1
      · refine ⟨n, by omega, ?_, ?_, ?_⟩
        · rw [hstep, heq, if_pos (Or.inr hc)]
        · intro j hj
          rcases Nat.lt_succ_iff_lt_or_eq.mp hj with hj | hj
          · exact le_trans (le_of_lt hc) (hmin j hj)
          · subst hj; exact le_refl _
        · intro j hj
          exact lt_of_lt_of_le hc (hmin j (by omega))
      · refine ⟨m, by omega, ?_, ?_, ?_⟩
        · rw [hstep, heq, if_neg (fun h => h.elim hne hc)]
        · intro j hj
          rcases Nat.lt_succ_iff_lt_or_eq.mp hj with hj | hj
          · exact hmin j hj
          · subst hj; exact le_of_not_lt hc
        · exact hfirst

/-- C6 counterexample: for the single polynomial `x^5 + x^4` (not
odd-only) without the lazy flag, the implementation reports 2
multiplications (at `m = 1`, `k = 3`), while the claim's closed-form cost
model has minimum 3 over the same candidate range — the giant-step term is
truncated integer division `deg / k`, not `⌈deg/k⌉`, and for `m ≥ 1` the
baby-step cost is `k + m − 2`, not `k − 1`. -/
theorem claim_C6_counterexample :
    (getBestParameters [[0, 0, 0, 0, 1, 1]] false).multiplications = 2 ∧
    specBestCount [[0, 0, 0, 0, 1, 1]] false = 3 ∧ (2 : Int) ≠ 3 :=
  ⟨by decide, by decide, by decide⟩

/-- C6 amended: `getBestParameters` enumerates `m ∈ [0, ⌈log₂ d⌉]` with
`k = ⌈d / 2^m⌉` and returns the first candidate minimizing the
implemented multiplication count (`psCandidate`: non-lazy baby-step cost
`k − 1` for `m = 0` and `k + m − 2` otherwise, with the odd-only
alternative `⌊k/2⌋ + ⌊log₂ k⌋` resp. its adjusted-`k` variant taken when
strictly cheaper; lazy baby-step cost `m − 1` for `k = 1` and
`⌊(k−1)/2⌋ + m` otherwise; plus per polynomial the giant-step cost
`deg/k − 1` in truncated division, one more under the lazy flag, one less
when `deg mod k` is nonzero and at most `(k+1)/2`), together with that
count — stated under the hypothesis that no candidate count collides with
the `-1` "uninitialized" sentinel of the loop. -/
theorem claim_C6 (polys : List (List Int)) (lazy : Bool)
    (hnn : ∀ m : ℕ, m < ceilLog2 (maxDegZ polys) + 1 →
      0 ≤ psCandCost polys lazy m) :
    ∃ m : ℕ, m < ceilLog2 (maxDegZ polys) + 1 ∧
      getBestParameters polys lazy =
        ⟨(m : Int),
          (psCandidate polys lazy (areOddPolynomials polys)
            (maxDegZ polys) m).1,
          psCandCost polys lazy m,
          (psCandidate polys lazy (areOddPolynomials polys)
            (maxDegZ polys) m).2.2⟩ ∧
      (∀ j : ℕ, j < ceilLog2 (maxDegZ polys) + 1 →
        psCandCost polys lazy m ≤ psCandCost polys lazy j) ∧
      (∀ j : ℕ, j < m → psCandCost polys lazy m < psCandCost polys lazy j) :=
  bestFold_spec
    (psCandidate polys lazy (areOddPolynomials polys) (maxDegZ polys))
    (ceilLog2 (maxDegZ polys) + 1) (by omega) fun m hm => hnn m hm

/-- Witness for C6 on the polynomial `x^5 + x^4`. -/
theorem claim_C6_witness :
    ∃ m : ℕ, m < ceilLog2 (maxDegZ [[0, 0, 0, 0, 1, 1]]) + 1 ∧
      getBestParameters [[0, 0, 0, 0, 1, 1]] false =
        ⟨(m : Int),
          (psCandidate [[0, 0, 0, 0, 1, 1]] false
            (areOddPolynomials [[0, 0, 0, 0, 1, 1]])
            (maxDegZ [[0, 0, 0, 0, 1, 1]]) m).1,
          psCandCost [[0, 0, 0, 0, 1, 1]] false m,
          (psCandidate [[0, 0, 0, 0, 1, 1]] false
            (areOddPolynomials [[0, 0, 0, 0, 1, 1]])
            (maxDegZ [[0, 0, 0, 0, 1, 1]]) m).2.2⟩ ∧
      (∀ j : ℕ, j < ceilLog2 (maxDegZ [[0, 0, 0, 0, 1, 1]]) + 1 →
        psCandCost [[0, 0, 0, 0, 1, 1]] false m ≤
          psCandCost [[0, 0, 0, 0, 1, 1]] false j) ∧
      (∀ j : ℕ, j < m →
        psCandCost [[0, 0, 0, 0, 1, 1]] false m <
          psCandCost [[0, 0, 0, 0, 1, 1]] false j) :=
  claim_C6 [[0, 0, 0, 0, 1, 1]] false (by decide)

/-! ## Bootstrapping parameter selection
(`src/recryption.cpp`, `compute_fudge` lines 163-206 and
`RecryptData::setAE` lines 208-264)

`coeff_bound = context.boundForRecryption()` is an external `double`; it
enters as the exact rational parameter `cb`.  The three `while` loops are
embedded as fuel recursions whose fuel provably outlasts the loop
(`e_bnd ≤ 30` for `p ≥ 2`, and the other loops stop at `e_bnd + 1` at the
latest).  All exponent variables (`e_bnd`, `e`, `ePrime`, the loop counters)
are nonnegative throughout `setAE` — `e` starts at `r + 1 ≥ 2` and always
exceeds `ePrime` — so they are carried as naturals; the pairwise differences
compared by the loops never truncate. -/

/-- The `e_bnd` loop: largest `e` with `p^e ≤ (2^30 − 2) / p` in integer
division, i.e. (exactly) the largest `e` with `p^e ≤ 2^30 − 2`. -/
def eBndLoop (p : Int) : ℕ → ℕ → Int → ℕ
  | 0, eB, _ => eB
  | fuel + 1, eB, p2eB =>
      if p2eB ≤ ((2 ^ 30 : Int) - 2) / p then
        eBndLoop p fuel (eB + 1) (p2eB * p)
      else eB

/-- `e_bnd` (fuel 64 outlasts the at most 30 iterations for `p ≥ 2`). -/
def eBnd (p : Int) : ℕ := eBndLoop p 64 0 1

/-- `compute_fudge(p2ePrime, p2e) = 1 + eps`. -/
def computeFudge (p2ePrime p2e : Int) : ℚ :=
  if 1 < p2ePrime then
    if p2ePrime % 2 = 0 then 1 + 1 / ((p2ePrime : ℚ) * (p2ePrime : ℚ))
    else 1 + 1 / (p2e : ℚ)
  else 1

/-- The noise bound tested by `setAE` (non-strict in the code):
`p^e ≥ (p^ePrime · fudge + frstTerm) · coeff_bound · 2`. -/
def aeBoundQ (p p2ePr frstTerm : Int) (cb : ℚ) (e : ℕ) : Prop :=
  ((p ^ e : Int) : ℚ) ≥
    ((p2ePr : ℚ) * computeFudge p2ePr (p ^ e) + (frstTerm : ℚ)) * cb * 2

instance (p p2ePr frstTerm : Int) (cb : ℚ) (e : ℕ) :
    Decidable (aeBoundQ p p2ePr frstTerm cb e) := by
  unfold aeBoundQ; infer_instance

/-- The initial loop: smallest `e ≥ r + 1` with `e > e_bnd` or
`p^e ≥ frstTerm · coeff_bound · 2`. -/
def setAEInit (p : Int) (eB : ℕ) (bound2 : ℚ) : ℕ → ℕ → ℕ
  | 0, e => e
  | fuel + 1, e =>
      if e ≤ eB ∧ ((p ^ e : Int) : ℚ) < bound2 then
        setAEInit p eB bound2 fuel (e + 1)
      else e

/-- The inner `eTry` loop for one candidate `ePrimeTry`: advance while in
the window (`eTry ≤ e_bnd` and the difference still improves on the
current best `curDiff`), stopping early as soon as the bound holds. -/
def setAEInner (p : Int) (eB ePrimeTry : ℕ) (p2ePrimeTry frstTerm : Int)
    (cb : ℚ) (curDiff : ℕ) : ℕ → ℕ → ℕ
  | 0, eTry => eTry
  | fuel + 1, eTry =>
      if eTry ≤ eB ∧ eTry - ePrimeTry < curDiff then
        if aeBoundQ p p2ePrimeTry frstTerm cb eTry then eTry
        else setAEInner p eB ePrimeTry p2ePrimeTry frstTerm cb curDiff fuel
          (eTry + 1)
      else eTry

/-- The outer `ePrimeTry` loop, processing `count` consecutive candidate
values starting at `ePrimeTry`; the state is the current best
`(e, ePrime)`. -/
def setAEOuterGo (p : Int) (r eB : ℕ) (frstTerm : Int) (cb : ℚ) :
    ℕ → ℕ → ℕ × ℕ → ℕ × ℕ
  | 0, _, st => st
  | count + 1, ePrimeTry, st =>
      let p2ePrimeTry := p ^ ePrimeTry
      let eTry := setAEInner p eB ePrimeTry p2ePrimeTry frstTerm cb
        (st.1 - st.2) (eB + 2) (max (r + 1) (ePrimeTry + 1))
      let st1 := if eTry ≤ eB ∧ eTry - ePrimeTry < st.1 - st.2 then
          (eTry, ePrimeTry)
        else st
      setAEOuterGo p r eB frstTerm cb count (ePrimeTry + 1) st1

/-- `RecryptData::setAE`: returns `(e, ePrime)`, or the thrown
`RuntimeError` when no suitable `e` exists. -/
def setAE (p : Int) (r : ℕ) (cb : ℚ) : Except String (ℕ × ℕ) :=
  let p2r := p ^ r
  let frstTerm := 2 * p2r + 2
  let eB := eBnd p
  let e0 := setAEInit p eB ((frstTerm : ℚ) * cb * 2) (eB + 2) (r + 1)
  if e0 > eB then .error "setAE: cannot find suitable e"
  else .ok (setAEOuterGo p r eB frstTerm cb eB 1 (e0, 0))

/-- A satisfying pair of the enumeration: `ePr ∈ [1, eB]`,
`e ∈ [max(r+1, ePr+1), eB]`, and the (non-strict) bound holds. -/
def SatPair (p : Int) (r eB : ℕ) (frstTerm : Int) (cb : ℚ)
    (eP e : ℕ) : Prop :=
  1 ≤ eP ∧ eP ≤ eB ∧ max (r + 1) (eP + 1) ≤ e ∧ e ≤ eB ∧
    aeBoundQ p (p ^ eP) frstTerm cb e

/-- C2 counterexample: at `p = 127`, `r = 1`,
`coeff_bound = 4195872914689 / 67125543168` (a value engineered so that
the bound holds with exact equality at `e' = 2`, `e = 3`) the code returns
`(e, e') = (3, 2)`; the claim's *strict* bound
`p^e > 2·(fudge·p^{e'} + 2·p^r + 2)·coeffBound` fails at the returned pair
(the code tests non-strict `≥`), so the returned pair is not among the
claim's satisfying pairs at all — even though satisfying pairs exist
(e.g. `e' = 1`, `e = 3`, which satisfies the bound strictly). -/
theorem claim_C2_counterexample :
    setAE 127 1 (4195872914689 / 67125543168 : ℚ) = .ok (3, 2) ∧
    ¬(((127 ^ 3 : Int) : ℚ) >
      (((127 ^ 2 : Int) : ℚ) * computeFudge (127 ^ 2) (127 ^ 3) +
        ((2 * 127 ^ 1 + 2 : Int) : ℚ)) *
          (4195872914689 / 67125543168 : ℚ) * 2) ∧
    (((127 ^ 3 : Int) : ℚ) >
      (((127 ^ 1 : Int) : ℚ) * computeFudge (127 ^ 1) (127 ^ 3) +
        ((2 * 127 ^ 1 + 2 : Int) : ℚ)) *
          (4195872914689 / 67125543168 : ℚ) * 2) := by
  refine ⟨?_, ?_, ?_⟩
  · simp only [setAE, setAEOuterGo, setAEInner, setAEInit, eBnd, eBndLoop,
      computeFudge, aeBoundQ]
    norm_num
  · norm_num [computeFudge]
  · norm_num [computeFudge]

lemma setAEInit_ge (p : Int) (eB : ℕ) (bound2 : ℚ) :
    ∀ fuel e : ℕ, e ≤ setAEInit p eB bound2 fuel e := by
  intro fuel
  induction fuel with
  | zero => intro e; simp [setAEInit]
  | succ fuel ih =>
      intro e
      rw [setAEInit]
      split_ifs with h
      · exact le_trans (by omega) (ih (e + 1))
      · exact le_refl e

/-- The inner loop returns the first `eTry ≥ start` at which either the
window (`eTry ≤ e_bnd` and the difference improves on `curDiff`) fails or
the bound holds; everything before it is in the window and fails the
bound. -/
lemma setAEInner_spec (p : Int) (eB ePr : ℕ) (p2ePr frstTerm : Int)
    (cb : ℚ) (curDiff : ℕ) :
    ∀ fuel start : ℕ, eB + 1 ≤ start + fuel →
      start ≤ setAEInner p eB ePr p2ePr frstTerm cb curDiff fuel start ∧
      (∀ t, start ≤ t →
        t < setAEInner p eB ePr p2ePr frstTerm cb curDiff fuel start →
        (t ≤ eB ∧ t - ePr < curDiff) ∧ ¬aeBoundQ p p2ePr frstTerm cb t) ∧
      ((setAEInner p eB ePr p2ePr frstTerm cb curDiff fuel start ≤ eB ∧
          setAEInner p eB ePr p2ePr frstTerm cb curDiff fuel start - ePr <
            curDiff) →
        aeBoundQ p p2ePr frstTerm cb
          (setAEInner p eB ePr p2ePr frstTerm cb curDiff fuel start)) := by
  intro fuel
  induction fuel with
  | zero =>
      intro start hf
      refine ⟨by simp [setAEInner], ?_, ?_⟩
      · intro t h1 h2; rw [setAEInner] at h2; omega
      · rw [setAEInner]; intro hw; omega
  | succ fuel ih =>
      intro start hf
      rw [setAEInner]
      split_ifs with hw hb
      · refine ⟨le_refl _, ?_, fun _ => hb⟩
        intro t h1 h2; omega
      · obtain ⟨ih1, ih2, ih3⟩ := ih (start + 1) (by omega)
        refine ⟨by omega, ?_, ih3⟩
        intro t h1 h2
        rcases eq_or_lt_of_le h1 with rfl | h1
        · exact ⟨hw, hb⟩
        · exact ih2 t (by omega) h2
      · refine ⟨le_refl _, ?_, fun hw2 => absurd hw2 hw⟩
        intro t h1 h2; omega

/-- Invariant of the outer loop: the state stays a valid best pair
(the fudgeless baseline with `ePrime = 0`, or a satisfying pair), and its
difference is minimal among all satisfying pairs whose `ePrime` has
already been processed. -/
lemma setAEOuterGo_spec (p : Int) (r eB : ℕ) (frstTerm : Int) (cb : ℚ) :
    ∀ (count t : ℕ) (st : ℕ × ℕ), 1 ≤ t →
      st.2 < st.1 → st.1 ≤ eB → r + 1 ≤ st.1 →
      (st.2 = 0 ∨ SatPair p r eB frstTerm cb st.2 st.1) →
      (∀ eP e2, SatPair p r eB frstTerm cb eP e2 → eP < t →
        st.1 - st.2 ≤ e2 - eP) →
      (setAEOuterGo p r eB frstTerm cb count t st).2 <
          (setAEOuterGo p r eB frstTerm cb count t st).1 ∧
        (setAEOuterGo p r eB frstTerm cb count t st).1 ≤ eB ∧
        r + 1 ≤ (setAEOuterGo p r eB frstTerm cb count t st).1 ∧
        ((setAEOuterGo p r eB frstTerm cb count t st).2 = 0 ∨
          SatPair p r eB frstTerm cb
            (setAEOuterGo p r eB frstTerm cb count t st).2
            (setAEOuterGo p r eB frstTerm cb count t st).1) ∧
        ((setAEOuterGo p r eB frstTerm cb count t st).2 = 0 →
          setAEOuterGo p r eB frstTerm cb count t st = st) ∧
        (∀ eP e2, SatPair p r eB frstTerm cb eP e2 → eP < t + count →
          (setAEOuterGo p r eB frstTerm cb count t st).1 -
              (setAEOuterGo p r eB frstTerm cb count t st).2 ≤ e2 - eP) := by
  intro count
  induction count with
  | zero =>
      intro t st ht h1 h2 h3 h4 h5
      simp only [setAEOuterGo]
      exact ⟨h1, h2, h3, h4, fun _ => trivial,
        fun eP e2 hs hlt => h5 eP e2 hs (by omega)⟩
  | succ count ih =>
      intro t st ht h1 h2 h3 h4 h5
      obtain ⟨iSpec1, iSpec2, iSpec3⟩ :=
        setAEInner_spec p eB t (p ^ t) frstTerm cb (st.1 - st.2) (eB + 2)
          (max (r + 1) (t + 1)) (by omega)
      simp only [setAEOuterGo]
      set eI := setAEInner p eB t (p ^ t) frstTerm cb (st.1 - st.2) (eB + 2)
        (max (r + 1) (t + 1)) with hEI
      by_cases hupd : eI ≤ eB ∧ eI - t < st.1 - st.2
      · rw [if_pos hupd]
        have hbound := iSpec3 hupd
        have hSat : SatPair p r eB frstTerm cb t eI :=
          ⟨ht, by omega, iSpec1, hupd.1, hbound⟩
        have hMin : ∀ eP e2, SatPair p r eB frstTerm cb eP e2 → eP < t + 1 →
            (eI, t).1 - (eI, t).2 ≤ e2 - eP := by
          intro eP e2 hs hlt
          show eI - t ≤ e2 - eP
          have he2 : eP < e2 := by have := hs.2.2.1; omega
          rcases Nat.lt_succ_iff_lt_or_eq.mp hlt with hcase | hcase
          · have := h5 eP e2 hs hcase
            omega
          · subst hcase
            have heTry_le : eI ≤ e2 := by
              by_contra hlt2
              push_neg at hlt2
              exact (iSpec2 e2 hs.2.2.1 hlt2).2 hs.2.2.2.2
            omega
        have hrec := ih (t + 1) (eI, t) (by omega) (by show t < eI; omega)
          (by show eI ≤ eB; exact hupd.1) (by show r + 1 ≤ eI; omega)
          (Or.inr hSat) hMin
        refine ⟨hrec.1, hrec.2.1, hrec.2.2.1, hrec.2.2.2.1, ?_,
          fun eP e2 hs hlt => hrec.2.2.2.2.2 eP e2 hs (by omega)⟩
        intro hz
        have hback := hrec.2.2.2.2.1 hz
        rw [hback] at hz
        exact absurd hz (by show ¬t = 0; omega)
      · rw [if_neg hupd]
        have hMin : ∀ eP e2, SatPair p r eB frstTerm cb eP e2 → eP < t + 1 →
            st.1 - st.2 ≤ e2 - eP := by
          intro eP e2 hs hlt
          rcases Nat.lt_succ_iff_lt_or_eq.mp hlt with hcase | hcase
          · exact h5 eP e2 hs hcase
          · subst hcase
            by_contra hcon
            push_neg at hcon
            have he2 : eP < e2 := by have := hs.2.2.1; omega
            have heTry_le : eI ≤ e2 := by
              by_contra hlt2
              push_neg at hlt2
              exact (iSpec2 e2 hs.2.2.1 hlt2).2 hs.2.2.2.2
            have he2B := hs.2.2.2.1
            exact hupd ⟨by omega, by omega⟩
        have hrec := ih (t + 1) st (by omega) h1 h2 h3 h4 hMin
        exact ⟨hrec.1, hrec.2.1, hrec.2.2.1, hrec.2.2.2.1,
          fun hz => hrec.2.2.2.2.1 hz,
          fun eP e2 hs hlt => hrec.2.2.2.2.2 eP e2 hs (by omega)⟩

/-- C2 amended: `setAE` iterates candidate `ePrime` in `[1, e_bnd]` and,
for each, candidate `e` in `[max(r+1, ePrime+1), e_bnd]` until the
*non-strict* bound `p^e ≥ 2·(fudge·p^ePrime + 2·p^r + 2)·coeffBound` holds
(with `fudge = compute_fudge(p^ePrime, p^e)` and `e_bnd` the largest
exponent with `p^e_bnd ≤ 2^30 − 2`); whenever `setAE` returns, the
difference `e − ePrime` of the returned pair is at most that of *every*
satisfying pair, and the returned pair either is itself a satisfying pair
or is the fudgeless baseline (`ePrime = 0` with the smallest
`e ≥ r + 1` satisfying `p^e ≥ 2·(2·p^r + 2)·coeffBound`), the latter only
when no satisfying pair improves on it. -/
theorem claim_C2 (p : Int) (r : ℕ) (cb : ℚ) (e ePr : ℕ)
    (h : setAE p r cb = .ok (e, ePr)) :
    (∀ eP e2, SatPair p r (eBnd p) (2 * p ^ r + 2) cb eP e2 →
      e - ePr ≤ e2 - eP) ∧
    (ePr = 0 ∨ SatPair p r (eBnd p) (2 * p ^ r + 2) cb ePr e) ∧
    (ePr = 0 → e = setAEInit p (eBnd p)
      (((2 * p ^ r + 2 : Int) : ℚ) * cb * 2) (eBnd p + 2) (r + 1)) ∧
    r + 1 ≤ e ∧ e ≤ eBnd p ∧ ePr < e := by
  simp only [setAE] at h
  split at h
  · exact absurd h (by simp)
  · rename_i hinit
    have hok : setAEOuterGo p r (eBnd p) (2 * p ^ r + 2) cb (eBnd p) 1
        (setAEInit p (eBnd p) (((2 * p ^ r + 2 : Int) : ℚ) * cb * 2)
          (eBnd p + 2) (r + 1), 0) = (e, ePr) := by
      simpa using h
    have hge := setAEInit_ge p (eBnd p)
      (((2 * p ^ r + 2 : Int) : ℚ) * cb * 2) (eBnd p + 2) (r + 1)
    have hspec := setAEOuterGo_spec p r (eBnd p) (2 * p ^ r + 2) cb
      (eBnd p) 1
      (setAEInit p (eBnd p) (((2 * p ^ r + 2 : Int) : ℚ) * cb * 2)
        (eBnd p + 2) (r + 1), 0)
      (le_refl 1) (by show 0 < _; omega) (by show _ ≤ eBnd p; omega)
      (by show r + 1 ≤ _; omega) (Or.inl rfl)
      (fun eP e2 hs hlt => absurd hs.1 (by omega))
    rw [hok] at hspec
    refine ⟨fun eP e2 hs => hspec.2.2.2.2.2 eP e2 hs
        (by have := hs.2.1; omega),
      hspec.2.2.2.1, ?_, hspec.2.2.1, hspec.2.1, hspec.1⟩
    intro hz
    have := hspec.2.2.2.2.1 hz
    exact congrArg Prod.fst this

/-- Witness for C2 at the counterexample input `p = 127`, `r = 1`. -/
theorem claim_C2_witness :
    (∀ eP e2,
      SatPair 127 1 (eBnd 127) (2 * 127 ^ 1 + 2)
          (4195872914689 / 67125543168 : ℚ) eP e2 →
      3 - 2 ≤ e2 - eP) ∧
    ((2 : ℕ) = 0 ∨ SatPair 127 1 (eBnd 127) (2 * 127 ^ 1 + 2)
      (4195872914689 / 67125543168 : ℚ) 2 3) ∧
    ((2 : ℕ) = 0 → (3 : ℕ) = setAEInit 127 (eBnd 127)
      (((2 * 127 ^ 1 + 2 : Int) : ℚ) * (4195872914689 / 67125543168 : ℚ) * 2)
      (eBnd 127 + 2) (1 + 1)) ∧
    1 + 1 ≤ 3 ∧ 3 ≤ eBnd 127 ∧ 2 < 3 :=
  claim_C2 127 1 (4195872914689 / 67125543168 : ℚ) 3 2
    (by simp only [setAE, setAEOuterGo, setAEInner, setAEInit, eBnd,
          eBndLoop, computeFudge, aeBoundQ]
        norm_num)

end HelibVerify
